import Mathlib

/-!
# VKMessageDumper — verification of the resumable download engine

Shallow embedding of `src/VKDumper.py`: the download planner (`main`,
lines 175–189), the per-task downloader (`download_photo`, lines 106–118),
the resume-state store (`load_state`/`save_state`, lines 88–103), and the
orchestrating fetch loop (`main`, lines 151–204).

Python dictionaries become association lists, Python exceptions become
`Option`/`Except`, the filesystem becomes a partial map from paths to byte
lists, and the network becomes a function from URLs to an outcome that can
succeed, fail before the destination file is opened, or drop mid-stream
after a partial write.
-/

namespace VKDumper

/-- `MAX_WORKERS = 6` (line 11 of the source). -/
def MAX_WORKERS : Nat := 6

/-- `COUNT_PER_REQUEST = 200` (line 12 of the source). -/
def COUNT_PER_REQUEST : Nat := 200

/-! ## Data model for page items

A size variant is a JSON object; the code reads `s.get("width", 0)`
(missing width defaults to 0) and `best["url"]` (missing URL raises,
which skips the item). A photo is read as `item["attachment"]["photo"]`
(missing raises, skipping the item), with `photo.get("sizes", [])` and
`photo['id']` (missing raises, skipping the item). -/

structure SizeVariant where
  width : Option Int
  url : Option String
deriving DecidableEq, Repr

structure Photo where
  id : Option Int
  sizes : List SizeVariant
deriving DecidableEq, Repr

structure Item where
  photo : Option Photo
deriving DecidableEq, Repr

/-- The sort key used at line 182: `lambda s: s.get("width", 0)`. -/
def keyWidth (s : SizeVariant) : Int :=
  s.width.getD 0

/-- `max(sizes, key=lambda s: s.get("width", 0))` (line 182).
Python's `max` scans left to right and replaces the current best only on a
strictly greater key, so on ties the earliest maximal element wins; on an
empty list it raises, which the code rules out by the `if not sizes`
guard (line 180), modelled here by returning `none`. -/
def maxByWidth : List SizeVariant → Option SizeVariant
  | [] => none
  | x :: xs => some (xs.foldl (fun best s => if keyWidth best < keyWidth s then s else best) x)

/-- Python `str.split(sep)` for a one-character separator, on the
character list of the string: `"".split(c)` is `[""]`, and every
occurrence of the separator starts a new (possibly empty) segment. -/
def splitOnChar (c : Char) : List Char → List (List Char)
  | [] => [[]]
  | x :: xs =>
    let r := splitOnChar c xs
    if x = c then [] :: r
    else
      match r with
      | [] => [[x]]
      | y :: ys => (x :: y) :: ys

/-- `url.split("?")[0]` (line 184): everything before the first `?`,
the whole string if there is none. -/
def stripQuery (url : String) : String :=
  String.mk ((splitOnChar (Char.ofNat 63) url.data).headD [])

/-- `url.split("?")[0].split(".")[-1]` (line 184): the final dot-delimited
segment of the query-stripped URL. -/
def extOf (url : String) : String :=
  String.mk ((splitOnChar (Char.ofNat 46) (stripQuery url).data).getLastD [])

/-- `os.path.join(folder, filename)` restricted to the shapes that occur
here (the filename starts with `photo_`, so it is never absolute):
append the name, inserting a `/` unless the folder is empty or already
ends in one. -/
def ospath_join (folder name : String) : String :=
  if folder = "" then name
  else if folder.data.getLast? = some (Char.ofNat 47) then folder ++ name
  else folder ++ "/" ++ name

/-- One iteration of the planning loop body (lines 177–189): extract the
photo, skip if the size list is empty, pick the widest variant, read its
URL and the photo id, and build `(url, path)`. Any missing field raises in
the source and is caught by the `except ... continue`, modelled by
returning `none`. -/
def planItem (folder : String) (item : Item) : Option (String × String) :=
  match item.photo with
  | none => none
  | some photo =>
    match maxByWidth photo.sizes with
    | none => none
    | some best =>
      match best.url, photo.id with
      | some url, some pid =>
          some (url, ospath_join folder ("photo_" ++ toString pid ++ "." ++ extOf url))
      | _, _ => none

/-- The whole planning loop (lines 175–189): one task per item that
survives extraction, malformed items silently dropped. -/
def plan (folder : String) (items : List Item) : List (String × String) :=
  items.filterMap (planItem folder)

/-! ## Downloader -/

/-- The filesystem under the output folder: path ↦ file contents. -/
abbrev FS : Type := String → Option (List Nat)

/-- Outcome of `requests.get` + streaming for one URL:
* `ok bytes` — the request succeeds and the full body is streamed;
* `failAfter part` — `raise_for_status` passes and the destination file
  is opened, but the stream drops after `part` bytes were written;
* `failEarly` — the request or `raise_for_status` fails before
  `open(path, "wb")` runs, so no file is created. -/
inductive NetResult where
  | ok (bytes : List Nat)
  | failAfter (part : List Nat)
  | failEarly
deriving DecidableEq, Repr

/-- `download_photo` (lines 106–118): return `False` if the destination
already exists; otherwise fetch and stream to the destination, returning
`True` on success and `False` (with the partial file left behind) when the
stream drops, or `False` (no file) when the request fails early. Returns
the updated filesystem together with the reported boolean. -/
def download_photo (net : String → NetResult) (fs : FS) (task : String × String) :
    FS × Bool :=
  if (fs task.2).isSome then (fs, false)
  else
    match net task.1 with
    | .ok bytes => (fun p => if p = task.2 then some bytes else fs p, true)
    | .failAfter part => (fun p => if p = task.2 then some part else fs p, false)
    | .failEarly => (fs, false)

/-- The per-page batch (lines 191–196), modelled sequentially in
submission order: run every task, returning the final filesystem and the
list of per-task results that `as_completed` hands back. -/
def runBatchR (net : String → NetResult) : FS → List (String × String) → FS × List Bool
  | fs, [] => (fs, [])
  | fs, t :: ts =>
    let r := download_photo net fs t
    let rest := runBatchR net r.1 ts
    (rest.1, r.2 :: rest.2)

/-- `total` is incremented once per `True` result (lines 193–195). -/
def countTrue (bs : List Bool) : Nat :=
  (bs.filter id).length

/-! ## Resume state

The persisted mapping is a JSON object; `json.dump` can write `null`
values, so values are `Option String`. A Python dict is modelled as an
association list in insertion order. -/

abbrev ResumeState : Type := List (String × Option String)

/-- `state.get(k)` (line 146): Python returns `None` both when the key is
absent and when the stored value is `null`, and the code only ever tests
the result for truthiness, so the two collapse. -/
def stateGet (st : ResumeState) (k : String) : Option String :=
  match st.lookup k with
  | none => none
  | some v => v

/-- `state[k] = v` (line 198): overwrite in place if the key is present,
append otherwise (Python dicts keep insertion order). -/
def stateSet (st : ResumeState) (k : String) (v : Option String) : ResumeState :=
  if st.any (fun p => p.1 = k) then
    st.map (fun p => if p.1 = k then (k, v) else p)
  else st ++ [(k, v)]

/-- `state.pop(k, None)` (line 202). -/
def statePop (st : ResumeState) (k : String) : ResumeState :=
  st.filter (fun p => p.1 ≠ k)

/-- Python truthiness of a cursor: `None` and the empty string are falsy
(`if start_from:` line 159, `if not start_from:` line 201). -/
def truthy : Option String → Bool
  | none => false
  | some s => !(s == "")

/-- `load_state` (lines 88–95): `fileExists` is `os.path.exists`,
`readFile` the result of `open` + read, `parse` the result of
`json.load`; every failure is caught and turns into the empty mapping. -/
def load_state (fileExists : Bool) (readFile : Except Unit String)
    (parse : String → Except Unit ResumeState) : ResumeState :=
  if fileExists then
    match readFile with
    | .error _ => []
    | .ok text =>
      match parse text with
      | .error _ => []
      | .ok m => m
  else []

/-- `save_state` (lines 98–103): attempt the write; `except Exception:
pass` swallows any failure, so the call always returns normally. -/
def save_state (write : Except Unit Unit) : Except Unit Unit :=
  match write with
  | .error _ => .ok ()
  | .ok _ => .ok ()

/-! ## The orchestrating fetch loop (lines 151–204)

The remote API is a script: the list of responses the successive
`vk.messages.getHistoryAttachments` calls would produce. Save outcomes
are a function of the save counter (`save_state` swallows failures, so a
failed save leaves the file untouched and the loop continues). The loop
emits a trace of events tagged with the page index so that temporal
claims can be stated about it; a `persisted` event is emitted exactly
when a save succeeds, and carries the full file contents written. -/

/-- One response of the remote API: an API-reported error (line 164), any
other exception (line 167), or a page with its items and optional
`next_from` cursor. -/
inductive FetchResult where
  | apiError
  | otherError
  | page (items : List Item) (next_from : Option String)
deriving DecidableEq, Repr

inductive Event where
  | fetched (pageIdx : Nat) (usedCursor : Option String)
  | taskDone (pageIdx : Nat) (task : String × String) (newlyDownloaded : Bool)
  | persisted (pageIdx : Nat) (file : ResumeState)
  | reportedError (pageIdx : Nat)
deriving DecidableEq, Repr

/-- Page index an event belongs to. -/
def Event.pageOf : Event → Nat
  | .fetched k _ => k
  | .taskDone k _ _ => k
  | .persisted k _ => k
  | .reportedError k => k

/-- The batch-then-persist ordering property of a trace: after any
`persisted` event of page `k`, no download task of page `k` completes. -/
def noTaskAfterPersist : List Event → Prop
  | [] => True
  | Event.persisted k _ :: rest =>
      (∀ t b, Event.taskDone k t b ∉ rest) ∧ noTaskAfterPersist rest
  | _ :: rest => noTaskAfterPersist rest

structure LoopState where
  /-- the in-memory `state` dict (line 145) -/
  memState : ResumeState
  /-- the on-disk contents of `resume_state.json` -/
  fileState : ResumeState
  /-- the `start_from` local (lines 146, 197) -/
  start_from : Option String
  /-- the output-folder filesystem -/
  fs : FS
  /-- the `total` counter (line 149) -/
  total : Nat
  /-- how many `save_state` calls have run so far -/
  saveCount : Nat
  /-- index of the next page to fetch -/
  pageIdx : Nat

/-- The cursor the fetch would pass (`if start_from:` at line 159). -/
def usedCursor (st : LoopState) : Option String :=
  if truthy st.start_from then st.start_from else none

/-- The `taskDone` events of one batch, in submission order; a save's
success/failure pattern never reorders them. -/
def batchEvents (k : Nat) (tasks : List (String × String)) (results : List Bool) :
    List Event :=
  (tasks.zip results).map (fun tb => Event.taskDone k tb.1 tb.2)

/-- Processing of one non-empty page after a successful fetch (lines
175–204, minus the loop control): plan, run the batch, add the
successes to `total`, set `state[peer] = next_from` and save; when
`next_from` is falsy, additionally pop the key and save again. A
successful save copies the in-memory dict to the file and emits a
`persisted` event; a failed save leaves the file as it was. -/
def pageStep (peer folder : String) (net : String → NetResult) (saveOk : Nat → Bool)
    (st : LoopState) (items : List Item) (nf : Option String) : LoopState × List Event :=
  let tasks := plan folder items
  let batch := runBatchR net st.fs tasks
  let mem1 := stateSet st.memState peer nf
  let st1 : LoopState :=
    { memState := mem1,
      fileState := (if saveOk st.saveCount then mem1 else st.fileState),
      start_from := nf, fs := batch.1, total := st.total + countTrue batch.2,
      saveCount := st.saveCount + 1, pageIdx := st.pageIdx }
  let evs := Event.fetched st.pageIdx (usedCursor st) ::
      batchEvents st.pageIdx tasks batch.2 ++
      (if saveOk st.saveCount then [Event.persisted st.pageIdx mem1] else [])
  if truthy nf then
    ({ st1 with pageIdx := st.pageIdx + 1 }, evs)
  else
    let mem2 := statePop mem1 peer
    ({ st1 with
        memState := mem2
        fileState := (if saveOk (st.saveCount + 1) then mem2 else st1.fileState)
        saveCount := st.saveCount + 2 },
     evs ++ (if saveOk (st.saveCount + 1) then [Event.persisted st.pageIdx mem2] else []))

/-- The `while True` loop of `main` (lines 152–204), driven by the
response script. Each iteration: fetch (errors print and break, lines
164–169); `break` on an empty item list (line 173) — note no state
change; otherwise process the page via `pageStep` and continue while
`next_from` stays truthy. An exhausted script ends the observation. -/
def runLoop (peer folder : String) (net : String → NetResult) (saveOk : Nat → Bool) :
    List FetchResult → LoopState → LoopState × List Event
  | [], st => (st, [])
  | resp :: rest, st =>
    match resp with
    | .apiError => (st, [.fetched st.pageIdx (usedCursor st), .reportedError st.pageIdx])
    | .otherError => (st, [.fetched st.pageIdx (usedCursor st), .reportedError st.pageIdx])
    | .page items next_from =>
      if items.isEmpty then
        (st, [.fetched st.pageIdx (usedCursor st)])
      else
        let pr := pageStep peer folder net saveOk st items next_from
        if truthy next_from then
          let restRun := runLoop peer folder net saveOk rest pr.1
          (restRun.1, pr.2 ++ restRun.2)
        else
          (pr.1, pr.2)

/-- The state on entry to the loop (lines 145–149): the in-memory dict
comes from `load_state`, the file holds the same mapping, and
`start_from = state.get(str(peer_id))`. -/
def initState (loaded : ResumeState) (fs0 : FS) (peer : String) : LoopState :=
  { memState := loaded, fileState := loaded, start_from := stateGet loaded peer,
    fs := fs0, total := 0, saveCount := 0, pageIdx := 0 }

/-- The loop reaches its `k`-th fetch exactly when every earlier response
was a non-empty page with a truthy `next_from`. -/
def reachesPage (script : List FetchResult) (k : Nat) : Prop :=
  ∀ j < k, ∃ items nf, script.get? j = some (FetchResult.page items nf)
    ∧ items ≠ [] ∧ truthy nf = true

/-! ## Bounded worker pool

`ThreadPoolExecutor(max_workers=MAX_WORKERS)` (line 151). Modelled from
the spec: a bounded worker pool of fixed capacity; a pending task may
start only while fewer than `cap` tasks are in flight, and each in-flight
task runs to completion before its worker takes another. `runBatchR`
above gives the functional result of a batch; this step relation models
its concurrent execution. -/

structure ExecState where
  pending : List (String × String)
  running : List (String × String)
  finished : List ((String × String) × Bool)
deriving DecidableEq, Repr

/-- One scheduler step of the pool with capacity `cap`: start the next
pending task when a worker is free, or complete any in-flight task. -/
inductive ExecStep (cap : Nat) : ExecState → ExecState → Prop
  | start (t : String × String) (rest running : List (String × String))
      (finished : List ((String × String) × Bool)) :
      running.length < cap →
      ExecStep cap ⟨t :: rest, running, finished⟩ ⟨rest, t :: running, finished⟩
  | finish (pending l₁ l₂ : List (String × String)) (t : String × String)
      (finished : List ((String × String) × Bool)) (b : Bool) :
      ExecStep cap ⟨pending, l₁ ++ t :: l₂, finished⟩
        ⟨pending, l₁ ++ l₂, (t, b) :: finished⟩

/-- States reachable from submitting a batch of tasks to an idle pool. -/
inductive ExecReach (cap : Nat) (tasks : List (String × String)) : ExecState → Prop
  | init : ExecReach cap tasks ⟨tasks, [], []⟩
  | step {s s' : ExecState} : ExecReach cap tasks s → ExecStep cap s s' →
      ExecReach cap tasks s'

/-! ## Helper lemmas -/

theorem foldl_best_mem (xs : List SizeVariant) (a : SizeVariant) :
    xs.foldl (fun best s => if keyWidth best < keyWidth s then s else best) a ∈ a :: xs := by
  induction xs generalizing a with
  | nil => simp
  | cons x xs ih =>
    simp only [List.foldl_cons]
    by_cases h : keyWidth a < keyWidth x
    · rw [if_pos h]
      rcases List.mem_cons.mp (ih x) with h2 | h2
      · simp [h2]
      · simp [List.mem_cons_of_mem, h2]
    · rw [if_neg h]
      rcases List.mem_cons.mp (ih a) with h2 | h2
      · simp [h2]
      · simp [List.mem_cons_of_mem, h2]

theorem foldl_best_ge (xs : List SizeVariant) (a : SizeVariant) :
    ∀ t ∈ a :: xs, keyWidth t ≤
      keyWidth (xs.foldl (fun best s => if keyWidth best < keyWidth s then s else best) a) := by
  induction xs generalizing a with
  | nil =>
    intro t ht
    rcases List.mem_cons.mp ht with rfl | h2
    · exact le_refl _
    · simp at h2
  | cons x xs ih =>
    intro t ht
    simp only [List.foldl_cons]
    have hba : keyWidth a ≤ keyWidth (if keyWidth a < keyWidth x then x else a) := by
      by_cases h : keyWidth a < keyWidth x
      · rw [if_pos h]; exact le_of_lt h
      · rw [if_neg h]
    have hbx : keyWidth x ≤ keyWidth (if keyWidth a < keyWidth x then x else a) := by
      by_cases h : keyWidth a < keyWidth x
      · rw [if_pos h]
      · rw [if_neg h]; exact le_of_not_lt h
    have hbmem : (if keyWidth a < keyWidth x then x else a)
        ∈ (if keyWidth a < keyWidth x then x else a) :: xs := List.mem_cons_self _ _
    rcases List.mem_cons.mp ht with rfl | ht2
    · exact le_trans hba (ih _ _ hbmem)
    · rcases List.mem_cons.mp ht2 with rfl | ht3
      · exact le_trans hbx (ih _ _ hbmem)
      · exact ih _ _ (List.mem_cons_of_mem _ ht3)

theorem length_filterMap_all_isSome {α β : Type} (f : α → Option β) (l : List α)
    (h : ∀ a ∈ l, (f a).isSome = true) : (l.filterMap f).length = l.length := by
  induction l with
  | nil => simp
  | cons x xs ih =>
    obtain ⟨y, hy⟩ := Option.isSome_iff_exists.mp (h x (by simp))
    rw [List.filterMap_cons, hy]
    simp [ih (fun a ha => h a (by simp [ha]))]

theorem lookup_stateSet (m : ResumeState) (k : String) (v : Option String) :
    (stateSet m k v).lookup k = some v := by
  induction m with
  | nil => simp [stateSet, List.lookup]
  | cons p m ih =>
    obtain ⟨a, w⟩ := p
    by_cases hp : a = k
    · subst hp
      have hany : ((a, w) :: m).any (fun q => q.1 = a) = true := by simp
      simp [stateSet, hany, List.lookup]
    · have hkbeq : (k == a) = false := by
        simp only [beq_eq_false_iff_ne, ne_eq]
        exact fun h => hp h.symm
      have hany : ((a, w) :: m).any (fun q => q.1 = k) = m.any (fun q => q.1 = k) := by
        simp [List.any_cons, hp]
      by_cases hm : m.any (fun q => q.1 = k) = true
      · have hset : stateSet m k v = m.map (fun q => if q.1 = k then (k, v) else q) := by
          simp [stateSet, hm]
        simp only [stateSet, hany, hm, if_true, List.map_cons, if_neg hp, List.lookup, hkbeq]
        rw [← hset]
        exact ih
      · have hm2 : m.any (fun q => q.1 = k) = false := Bool.eq_false_iff.mpr hm
        have hset : stateSet m k v = m ++ [(k, v)] := by
          simp [stateSet, hm2]
        simp only [stateSet, hany, hm2, Bool.false_eq_true, if_false, List.cons_append,
          List.lookup, hkbeq]
        rw [← hset]
        exact ih

theorem lookup_statePop (m : ResumeState) (k : String) :
    (statePop m k).lookup k = none := by
  induction m with
  | nil => simp [statePop, List.lookup]
  | cons p m ih =>
    obtain ⟨a, w⟩ := p
    by_cases hp : a = k
    · subst hp
      have : statePop ((a, w) :: m) a = statePop m a := by
        simp [statePop, List.filter_cons]
      rw [this]
      exact ih
    · have hkbeq : (k == a) = false := by
        simp only [beq_eq_false_iff_ne, ne_eq]
        exact fun h => hp h.symm
      have hkeep : (decide (a ≠ k)) = true := by simp [hp]
      simp only [statePop, List.filter_cons, hkeep, if_true, List.lookup, hkbeq]
      exact ih

theorem stateGet_stateSet (m : ResumeState) (k : String) (v : Option String) :
    stateGet (stateSet m k v) k = v := by
  simp [stateGet, lookup_stateSet]

theorem batchEvents_mem (k : Nat) (tasks : List (String × String)) (results : List Bool)
    (e : Event) (he : e ∈ batchEvents k tasks results) :
    ∃ t b, e = Event.taskDone k t b := by
  simp only [batchEvents, List.mem_map] at he
  obtain ⟨tb, _, htb⟩ := he
  exact ⟨tb.1, tb.2, htb.symm⟩

theorem pageStep_pageOf (peer folder : String) (net : String → NetResult)
    (saveOk : Nat → Bool) (st : LoopState) (items : List Item) (nf : Option String) :
    ∀ e ∈ (pageStep peer folder net saveOk st items nf).2, e.pageOf = st.pageIdx := by
  intro e he
  by_cases ht : truthy nf = true
  · simp only [pageStep, ht, if_true] at he
    rcases List.mem_cons.mp he with rfl | he2
    · rfl
    · rcases List.mem_append.mp he2 with he3 | he3
      · obtain ⟨t, b, rfl⟩ := batchEvents_mem _ _ _ _ he3
        rfl
      · by_cases h1 : saveOk st.saveCount = true
        · simp only [h1, if_true, List.mem_singleton] at he3
          subst he3; rfl
        · simp only [Bool.eq_false_iff.mpr h1, Bool.false_eq_true, if_false] at he3
          simp at he3
  · have ht2 : truthy nf = false := Bool.eq_false_iff.mpr ht
    simp only [pageStep, ht2, Bool.false_eq_true, if_false] at he
    rcases List.mem_append.mp he with he2 | he2
    · rcases List.mem_cons.mp he2 with rfl | he3
      · rfl
      · rcases List.mem_append.mp he3 with he4 | he4
        · obtain ⟨t, b, rfl⟩ := batchEvents_mem _ _ _ _ he4
          rfl
        · by_cases h1 : saveOk st.saveCount = true
          · simp only [h1, if_true, List.mem_singleton] at he4
            subst he4; rfl
          · simp only [Bool.eq_false_iff.mpr h1, Bool.false_eq_true, if_false] at he4
            simp at he4
    · by_cases h2 : saveOk (st.saveCount + 1) = true
      · simp only [h2, if_true, List.mem_singleton] at he2
        subst he2; rfl
      · simp only [Bool.eq_false_iff.mpr h2, Bool.false_eq_true, if_false] at he2
        simp at he2

theorem pageStep_fst_pageIdx (peer folder : String) (net : String → NetResult)
    (saveOk : Nat → Bool) (st : LoopState) (items : List Item) (nf : Option String)
    (ht : truthy nf = true) :
    (pageStep peer folder net saveOk st items nf).1.pageIdx = st.pageIdx + 1 := by
  simp [pageStep, ht]

theorem runLoop_pageOf_ge (peer folder : String) (net : String → NetResult)
    (saveOk : Nat → Bool) (script : List FetchResult) :
    ∀ (st : LoopState), ∀ e ∈ (runLoop peer folder net saveOk script st).2,
      st.pageIdx ≤ e.pageOf := by
  induction script with
  | nil => intro st e he; simp [runLoop] at he
  | cons resp rest ih =>
    intro st e he
    cases resp with
    | apiError =>
      simp only [runLoop] at he
      rcases List.mem_cons.mp he with rfl | he2
      · exact le_refl _
      · rcases List.mem_singleton.mp he2 with rfl
        exact le_refl _
    | otherError =>
      simp only [runLoop] at he
      rcases List.mem_cons.mp he with rfl | he2
      · exact le_refl _
      · rcases List.mem_singleton.mp he2 with rfl
        exact le_refl _
    | page items nf =>
      by_cases hemp : items.isEmpty = true
      · simp only [runLoop, hemp, if_true] at he
        rcases List.mem_singleton.mp he with rfl
        exact le_refl _
      · have hemp2 : items.isEmpty = false := Bool.eq_false_iff.mpr hemp
        by_cases ht : truthy nf = true
        · simp only [runLoop, hemp2, Bool.false_eq_true, if_false, ht, if_true] at he
          rcases List.mem_append.mp he with he2 | he2
          · exact le_of_eq (pageStep_pageOf peer folder net saveOk st items nf e he2).symm
          · have h1 := ih _ e he2
            rw [pageStep_fst_pageIdx peer folder net saveOk st items nf ht] at h1
            omega
        · have ht2 : truthy nf = false := Bool.eq_false_iff.mpr ht
          simp only [runLoop, hemp2, Bool.false_eq_true, if_false, ht2] at he
          exact le_of_eq (pageStep_pageOf peer folder net saveOk st items nf e he).symm

theorem ntap_no_persisted (xs : List Event) (h : ∀ k f, Event.persisted k f ∉ xs) :
    noTaskAfterPersist xs := by
  induction xs with
  | nil => trivial
  | cons e xs ih =>
    have ihx := ih (fun k f hm => h k f (List.mem_cons_of_mem _ hm))
    cases e with
    | persisted k f => exact absurd (List.mem_cons_self _ _) (h k f)
    | fetched k c => simpa [noTaskAfterPersist] using ihx
    | taskDone k t b => simpa [noTaskAfterPersist] using ihx
    | reportedError k => simpa [noTaskAfterPersist] using ihx

theorem ntap_append (xs ys : List Event) (hx : noTaskAfterPersist xs)
    (hy : noTaskAfterPersist ys)
    (hcross : ∀ k f, Event.persisted k f ∈ xs → ∀ t b, Event.taskDone k t b ∉ ys) :
    noTaskAfterPersist (xs ++ ys) := by
  induction xs with
  | nil => simpa using hy
  | cons e xs ih =>
    have hcross2 : ∀ k f, Event.persisted k f ∈ xs →
        ∀ t b, Event.taskDone k t b ∉ ys :=
      fun k f hm => hcross k f (List.mem_cons_of_mem _ hm)
    cases e with
    | persisted k f =>
      simp only [noTaskAfterPersist] at hx
      simp only [List.cons_append, noTaskAfterPersist]
      refine ⟨?_, ih hx.2 hcross2⟩
      intro t b hmem
      rcases List.mem_append.mp hmem with h1 | h1
      · exact hx.1 t b h1
      · exact hcross k f (List.mem_cons_self _ _) t b h1
    | fetched k c =>
      simp only [noTaskAfterPersist] at hx
      simp only [List.cons_append, noTaskAfterPersist]
      exact ih hx hcross2
    | taskDone k t b =>
      simp only [noTaskAfterPersist] at hx
      simp only [List.cons_append, noTaskAfterPersist]
      exact ih hx hcross2
    | reportedError k =>
      simp only [noTaskAfterPersist] at hx
      simp only [List.cons_append, noTaskAfterPersist]
      exact ih hx hcross2

theorem ntap_split (l₁ : List Event) : ∀ (xs : List Event), noTaskAfterPersist xs →
    ∀ (k : Nat) (f : ResumeState) (l₂ : List Event),
      xs = l₁ ++ Event.persisted k f :: l₂ →
      ∀ t b, Event.taskDone k t b ∉ l₂ := by
  induction l₁ with
  | nil =>
    intro xs hx k f l₂ hsplit t b
    subst hsplit
    simp only [List.nil_append, noTaskAfterPersist] at hx
    exact hx.1 t b
  | cons e l₁ ih =>
    intro xs hx k f l₂ hsplit t b
    subst hsplit
    cases e with
    | persisted k2 f2 =>
      simp only [List.cons_append, noTaskAfterPersist] at hx
      exact ih _ hx.2 k f l₂ rfl t b
    | fetched k2 c =>
      simp only [List.cons_append, noTaskAfterPersist] at hx
      exact ih _ hx k f l₂ rfl t b
    | taskDone k2 t2 b2 =>
      simp only [List.cons_append, noTaskAfterPersist] at hx
      exact ih _ hx k f l₂ rfl t b
    | reportedError k2 =>
      simp only [List.cons_append, noTaskAfterPersist] at hx
      exact ih _ hx k f l₂ rfl t b

theorem pageStep_ntap (peer folder : String) (net : String → NetResult)
    (saveOk : Nat → Bool) (st : LoopState) (items : List Item) (nf : Option String) :
    noTaskAfterPersist (pageStep peer folder net saveOk st items nf).2 := by
  have hhead : noTaskAfterPersist
      (Event.fetched st.pageIdx (usedCursor st) ::
        batchEvents st.pageIdx (plan folder items)
          (runBatchR net st.fs (plan folder items)).2 ++
        (if saveOk st.saveCount = true
          then [Event.persisted st.pageIdx (stateSet st.memState peer nf)] else [])) := by
    refine ntap_append _ _ ?_ ?_ ?_
    · refine ntap_no_persisted _ ?_
      intro k f hm
      rcases List.mem_cons.mp hm with he | he
      · exact Event.noConfusion he
      · obtain ⟨t, b, hb⟩ := batchEvents_mem _ _ _ _ he
        exact Event.noConfusion hb
    · by_cases h1 : saveOk st.saveCount = true
      · simp only [h1, if_true]
        simp [noTaskAfterPersist]
      · simp only [Bool.eq_false_iff.mpr h1, Bool.false_eq_true, if_false]
        trivial
    · intro k f hm t b hmem
      by_cases h1 : saveOk st.saveCount = true
      · simp only [h1, if_true, List.mem_singleton] at hmem
        exact Event.noConfusion hmem
      · simp only [Bool.eq_false_iff.mpr h1, Bool.false_eq_true, if_false] at hmem
        simp at hmem
  by_cases ht : truthy nf = true
  · simpa [pageStep, ht] using hhead
  · have ht2 : truthy nf = false := Bool.eq_false_iff.mpr ht
    simp only [pageStep, ht2, Bool.false_eq_true, if_false]
    refine ntap_append _ _ hhead ?_ ?_
    · by_cases h2 : saveOk (st.saveCount + 1) = true
      · simp only [h2, if_true]
        simp [noTaskAfterPersist]
      · simp only [Bool.eq_false_iff.mpr h2, Bool.false_eq_true, if_false]
        trivial
    · intro k f hm t b hmem
      by_cases h2 : saveOk (st.saveCount + 1) = true
      · simp only [h2, if_true, List.mem_singleton] at hmem
        exact Event.noConfusion hmem
      · simp only [Bool.eq_false_iff.mpr h2, Bool.false_eq_true, if_false] at hmem
        simp at hmem

theorem runLoop_ntap (peer folder : String) (net : String → NetResult)
    (saveOk : Nat → Bool) (script : List FetchResult) :
    ∀ st : LoopState, noTaskAfterPersist (runLoop peer folder net saveOk script st).2 := by
  induction script with
  | nil => intro st; trivial
  | cons resp rest ih =>
    intro st
    cases resp with
    | apiError => simp [runLoop, noTaskAfterPersist]
    | otherError => simp [runLoop, noTaskAfterPersist]
    | page items nf =>
      by_cases hemp : items.isEmpty = true
      · simp [runLoop, hemp, noTaskAfterPersist]
      · have hemp2 : items.isEmpty = false := Bool.eq_false_iff.mpr hemp
        by_cases ht : truthy nf = true
        · simp only [runLoop, hemp2, Bool.false_eq_true, if_false, ht, if_true]
          refine ntap_append _ _ (pageStep_ntap peer folder net saveOk st items nf)
            (ih _) ?_
          intro k f hm t b hmem
          have hk : k = st.pageIdx := by
            have := pageStep_pageOf peer folder net saveOk st items nf _ hm
            simpa [Event.pageOf] using this
          have hge := runLoop_pageOf_ge peer folder net saveOk rest _ _ hmem
          rw [pageStep_fst_pageIdx peer folder net saveOk st items nf ht] at hge
          simp only [Event.pageOf] at hge
          omega
        · have ht2 : truthy nf = false := Bool.eq_false_iff.mpr ht
          simp only [runLoop, hemp2, Bool.false_eq_true, if_false, ht2]
          exact pageStep_ntap peer folder net saveOk st items nf

theorem isEmpty_false_of_ne_nil {α : Type} {l : List α} (h : l ≠ []) :
    l.isEmpty = false := by
  cases l with
  | nil => exact absurd rfl h
  | cons a l => rfl

theorem ne_nil_of_isEmpty_false {α : Type} {l : List α} (h : l.isEmpty = false) :
    l ≠ [] := by
  cases l with
  | nil => simp at h
  | cons a l => exact List.cons_ne_nil a l

theorem runLoop_persisted_law (peer folder : String) (net : String → NetResult)
    (script : List FetchResult) :
    ∀ (st : LoopState) (k : Nat) (file : ResumeState),
      Event.persisted k file ∈ (runLoop peer folder net (fun _ => true) script st).2 →
      ∃ items nf, script.get? (k - st.pageIdx) = some (FetchResult.page items nf)
        ∧ items ≠ []
        ∧ (stateGet file peer = nf ∨ (truthy nf = false ∧ file.lookup peer = none)) := by
  induction script with
  | nil => intro st k file hm; simp [runLoop] at hm
  | cons resp rest ih =>
    intro st k file hm
    cases resp with
    | apiError =>
      simp only [runLoop] at hm
      rcases List.mem_cons.mp hm with he | he
      · exact Event.noConfusion he
      · exact Event.noConfusion (List.mem_singleton.mp he)
    | otherError =>
      simp only [runLoop] at hm
      rcases List.mem_cons.mp hm with he | he
      · exact Event.noConfusion he
      · exact Event.noConfusion (List.mem_singleton.mp he)
    | page items nf =>
      by_cases hemp : items.isEmpty = true
      · simp only [runLoop, hemp, if_true] at hm
        exact Event.noConfusion (List.mem_singleton.mp hm)
      · have hemp2 : items.isEmpty = false := Bool.eq_false_iff.mpr hemp
        have hne : items ≠ [] := ne_nil_of_isEmpty_false hemp2
        by_cases ht : truthy nf = true
        · simp only [runLoop, hemp2, Bool.false_eq_true, if_false, ht, if_true] at hm
          rcases List.mem_append.mp hm with he | he
          · simp only [pageStep, ht, if_true] at he
            rcases List.mem_cons.mp he with he2 | he2
            · exact Event.noConfusion he2
            · rcases List.mem_append.mp he2 with he3 | he3
              · obtain ⟨t, b, hb⟩ := batchEvents_mem _ _ _ _ he3
                exact Event.noConfusion hb
              · have he4 := List.mem_singleton.mp he3
                injection he4 with hk hf
                refine ⟨items, nf, ?_, hne, Or.inl ?_⟩
                · rw [hk]
                  simp
                · rw [hf]
                  exact stateGet_stateSet _ _ _
          · have hk1 : st.pageIdx + 1 ≤ k := by
              have hge := runLoop_pageOf_ge peer folder net (fun _ => true) rest _ _ he
              rw [pageStep_fst_pageIdx peer folder net (fun _ => true) st items nf ht]
                at hge
              simpa [Event.pageOf] using hge
            obtain ⟨items2, nf2, hget, hne2, hdisj⟩ := ih _ k file he
            rw [pageStep_fst_pageIdx peer folder net (fun _ => true) st items nf ht]
              at hget
            refine ⟨items2, nf2, ?_, hne2, hdisj⟩
            have hidx : k - st.pageIdx = (k - (st.pageIdx + 1)) + 1 := by omega
            rw [hidx]
            simpa using hget
        · have ht2 : truthy nf = false := Bool.eq_false_iff.mpr ht
          simp only [runLoop, hemp2, Bool.false_eq_true, if_false, ht2] at hm
          simp only [pageStep, ht2, Bool.false_eq_true, if_false] at hm
          rcases List.mem_append.mp hm with he | he
          · rcases List.mem_cons.mp he with he2 | he2
            · exact Event.noConfusion he2
            · rcases List.mem_append.mp he2 with he3 | he3
              · obtain ⟨t, b, hb⟩ := batchEvents_mem _ _ _ _ he3
                exact Event.noConfusion hb
              · have he4 := List.mem_singleton.mp he3
                injection he4 with hk hf
                refine ⟨items, nf, ?_, hne, Or.inl ?_⟩
                · rw [hk]
                  simp
                · rw [hf]
                  exact stateGet_stateSet _ _ _
          · have he4 := List.mem_singleton.mp he
            injection he4 with hk hf
            refine ⟨items, nf, ?_, hne, Or.inr ⟨ht2, ?_⟩⟩
            · rw [hk]
              simp
            · rw [hf]
              exact lookup_statePop _ _

theorem runLoop_falsy_removes (peer folder : String) (net : String → NetResult) :
    ∀ (k : Nat) (script : List FetchResult) (st : LoopState) (items : List Item)
      (nf : Option String),
      reachesPage script k → script.get? k = some (FetchResult.page items nf) →
      items ≠ [] → truthy nf = false →
      (runLoop peer folder net (fun _ => true) script st).1.fileState.lookup peer = none
      ∧ (runLoop peer folder net (fun _ => true) script st).1.memState.lookup peer
          = none := by
  intro k
  induction k with
  | zero =>
    intro script st items nf hreach hget hne ht2
    cases script with
    | nil => simp at hget
    | cons resp rest =>
      have hresp : resp = FetchResult.page items nf := by simpa using hget
      subst hresp
      have hemp2 : items.isEmpty = false := isEmpty_false_of_ne_nil hne
      simp only [runLoop, hemp2, Bool.false_eq_true, if_false, ht2]
      simp only [pageStep, ht2, Bool.false_eq_true, if_false, if_pos rfl]
      exact ⟨lookup_statePop _ _, lookup_statePop _ _⟩
  | succ k ihk =>
    intro script st items nf hreach hget hne ht2
    cases script with
    | nil => simp at hget
    | cons resp rest =>
      obtain ⟨items0, nf0, hget0, hne0, ht0⟩ := hreach 0 (Nat.succ_pos k)
      have hresp : resp = FetchResult.page items0 nf0 := by simpa using hget0
      subst hresp
      have hemp0 : items0.isEmpty = false := isEmpty_false_of_ne_nil hne0
      simp only [runLoop, hemp0, Bool.false_eq_true, if_false, ht0, if_true]
      refine ihk rest _ items nf ?_ ?_ hne ht2
      · intro j hj
        have := hreach (j + 1) (by omega)
        simpa using this
      · simpa using hget

theorem runLoop_empty_truncates (peer folder : String) (net : String → NetResult)
    (saveOk : Nat → Bool) :
    ∀ (k : Nat) (script : List FetchResult) (st : LoopState) (nf : Option String),
      reachesPage script k → script.get? k = some (FetchResult.page [] nf) →
      (runLoop peer folder net saveOk script st).1
        = (runLoop peer folder net saveOk (script.take k) st).1 := by
  intro k
  induction k with
  | zero =>
    intro script st nf hreach hget
    cases script with
    | nil => simp at hget
    | cons resp rest =>
      have hresp : resp = FetchResult.page [] nf := by simpa using hget
      subst hresp
      simp [runLoop]
  | succ k ihk =>
    intro script st nf hreach hget
    cases script with
    | nil => simp at hget
    | cons resp rest =>
      obtain ⟨items0, nf0, hget0, hne0, ht0⟩ := hreach 0 (Nat.succ_pos k)
      have hresp : resp = FetchResult.page items0 nf0 := by simpa using hget0
      subst hresp
      have hemp0 : items0.isEmpty = false := isEmpty_false_of_ne_nil hne0
      simp only [List.take_succ_cons, runLoop, hemp0, Bool.false_eq_true, if_false, ht0,
        if_true]
      refine ihk rest _ nf ?_ ?_
      · intro j hj
        have := hreach (j + 1) (by omega)
        simpa using this
      · simpa using hget

/-! ## Claim theorems -/

/-- C3. A task whose destination path already exists on disk is skipped:
`download_photo` returns the filesystem unchanged with result `False`,
and within a batch such a task changes neither the final filesystem nor
the count of newly downloaded files — so a re-run over a
partially-downloaded folder never re-fetches bytes for present files. -/
theorem existing_file_skipped (net : String → NetResult) (fs : FS) (url path : String)
    (bytes : List Nat) (ts : List (String × String)) (h : fs path = some bytes) :
    download_photo net fs (url, path) = (fs, false)
    ∧ (runBatchR net fs ((url, path) :: ts)).1 = (runBatchR net fs ts).1
    ∧ countTrue (runBatchR net fs ((url, path) :: ts)).2
        = countTrue (runBatchR net fs ts).2 := by
  have hdp : download_photo net fs (url, path) = (fs, false) := by
    simp [download_photo, h]
  refine ⟨hdp, ?_, ?_⟩ <;> simp [runBatchR, hdp, countTrue]

theorem existing_file_skipped_witness :
    (fun p => if p = "out/photo_1.jpg" then some [7] else (none : Option (List Nat)))
        "out/photo_1.jpg" = some [7]
    ∧ download_photo (fun _ => NetResult.failEarly)
        (fun p => if p = "out/photo_1.jpg" then some [7] else none)
        ("http://x/a.jpg", "out/photo_1.jpg")
      = ((fun p => if p = "out/photo_1.jpg" then some [7] else none), false) :=
  ⟨by simp,
   (existing_file_skipped (fun _ => NetResult.failEarly)
      (fun p => if p = "out/photo_1.jpg" then some [7] else none)
      "http://x/a.jpg" "out/photo_1.jpg" [7] [] (by simp)).1⟩

/-- C9. When the stream drops after a partial write, the partial file
stays at the destination and every later execution of the same task — in
this run or a later one, under any network behaviour — reports
not-newly-downloaded and leaves the partial file in place. -/
theorem partial_file_never_replaced (net net1 : String → NetResult) (fs : FS)
    (url path : String) (part : List Nat)
    (h1 : fs path = none) (h2 : net url = NetResult.failAfter part) :
    (download_photo net fs (url, path)).2 = false
    ∧ (download_photo net fs (url, path)).1 path = some part
    ∧ download_photo net1 (download_photo net fs (url, path)).1 (url, path)
        = ((download_photo net fs (url, path)).1, false) := by
  have hdp : download_photo net fs (url, path)
      = ((fun p => if p = path then some part else fs p), false) := by
    simp [download_photo, h1, h2]
  refine ⟨by rw [hdp], by rw [hdp]; simp, ?_⟩
  rw [hdp]
  simp [download_photo]

theorem partial_file_never_replaced_witness :
    ((fun _ => none : FS) "p" = none)
    ∧ (download_photo (fun _ => NetResult.failAfter [1]) (fun _ => none) ("u", "p")).1 "p"
        = some [1]
    ∧ download_photo (fun _ => NetResult.ok [1, 2, 3])
        (download_photo (fun _ => NetResult.failAfter [1]) (fun _ => none) ("u", "p")).1
        ("u", "p")
      = ((download_photo (fun _ => NetResult.failAfter [1]) (fun _ => none) ("u", "p")).1,
         false) :=
  have h := partial_file_never_replaced (fun _ => NetResult.failAfter [1])
    (fun _ => NetResult.ok [1, 2, 3]) (fun _ => none) "u" "p" [1] rfl rfl
  ⟨rfl, h.2.1, h.2.2⟩

/-- C8. `load_state` never raises: an absent file, a failing read and a
failing parse all yield the empty mapping; and `save_state` swallows any
write failure, always returning normally, so a persistence error cannot
abort the fetch loop. -/
theorem resume_state_error_recovery (r : Except Unit String)
    (p : String → Except Unit ResumeState) (t : String) (w : Except Unit Unit)
    (hp : p t = Except.error ()) :
    load_state false r p = [] ∧ load_state true (Except.error ()) p = []
    ∧ load_state true (Except.ok t) p = [] ∧ save_state w = Except.ok () := by
  refine ⟨rfl, rfl, ?_, ?_⟩
  · simp [load_state, hp]
  · cases w <;> rfl

theorem resume_state_error_recovery_witness :
    ((fun _ : String => (Except.error () : Except Unit ResumeState)) "x" = Except.error ())
    ∧ load_state true (Except.ok "x") (fun _ => Except.error ()) = []
    ∧ save_state (Except.error ()) = Except.ok () :=
  have h := resume_state_error_recovery (Except.ok "x")
    (fun _ => Except.error ()) "x" (Except.error ()) rfl
  ⟨rfl, h.2.2.1, h.2.2.2⟩

/-- C7. A fetch error — API-reported or unexpected — makes the loop stop
at once: the returned state is exactly the state before the fetch (in
particular the persisted file is untouched), the error is reported, and
nothing after the failing response is consumed. -/
theorem fetch_error_aborts (peer folder : String) (net : String → NetResult)
    (saveOk : Nat → Bool) (rest : List FetchResult) (st : LoopState) :
    runLoop peer folder net saveOk (FetchResult.apiError :: rest) st
      = (st, [Event.fetched st.pageIdx (if truthy st.start_from then st.start_from else none),
              Event.reportedError st.pageIdx])
    ∧ runLoop peer folder net saveOk (FetchResult.otherError :: rest) st
      = (st, [Event.fetched st.pageIdx (if truthy st.start_from then st.start_from else none),
              Event.reportedError st.pageIdx]) :=
  ⟨rfl, rfl⟩

/-- C5 (amended). `max(sizes, key=...)` returns a member of the list whose
width key (missing width read as 0) is maximal; a missing-width variant
can only be chosen when no variant has positive width. -/
theorem widest_variant_selected (sizes : List SizeVariant) (best : SizeVariant)
    (h : maxByWidth sizes = some best) :
    best ∈ sizes ∧ (∀ t ∈ sizes, keyWidth t ≤ keyWidth best)
    ∧ (best.width = none → ∀ t ∈ sizes, keyWidth t ≤ 0) := by
  cases sizes with
  | nil => simp [maxByWidth] at h
  | cons x xs =>
    simp only [maxByWidth, Option.some.injEq] at h
    subst h
    refine ⟨foldl_best_mem xs x, fun t ht => foldl_best_ge xs x t ht, fun hw t ht => ?_⟩
    have hle := foldl_best_ge xs x t ht
    revert hw hle
    generalize (xs.foldl (fun best s => if keyWidth best < keyWidth s then s else best) x) = B
    intro hw hle
    have h0 : keyWidth B = 0 := by simp [keyWidth, hw]
    rw [h0] at hle
    exact hle

theorem widest_variant_selected_witness :
    (⟨some 3, some "u"⟩ : SizeVariant) ∈ [(⟨some 3, some "u"⟩ : SizeVariant)]
    ∧ (∀ t ∈ [(⟨some 3, some "u"⟩ : SizeVariant)],
        keyWidth t ≤ keyWidth ⟨some 3, some "u"⟩)
    ∧ ((⟨some 3, some "u"⟩ : SizeVariant).width = none →
        ∀ t ∈ [(⟨some 3, some "u"⟩ : SizeVariant)], keyWidth t ≤ 0) :=
  widest_variant_selected [⟨some 3, some "u"⟩] ⟨some 3, some "u"⟩ rfl

/-- C5, counterexample to the claim as stated: in
`[{width missing}, {width 0}]` the missing-width variant is selected even
though it is not the only variant — Python's `max` keeps the earliest of
the tied keys 0 and 0. -/
theorem widest_variant_counterexample :
    maxByWidth [⟨none, some "a.jpg"⟩, ⟨some 0, some "b.jpg"⟩]
      = some ⟨none, some "a.jpg"⟩
    ∧ (⟨none, some "a.jpg"⟩ : SizeVariant).width = none
    ∧ ([(⟨none, some "a.jpg"⟩ : SizeVariant), ⟨some 0, some "b.jpg"⟩]).length = 2 :=
  ⟨rfl, rfl, rfl⟩

/-- C4. A planned task's destination is
`{folder}/photo_{attachmentId}.{ext}` where `ext` is the final
dot-delimited segment of the selected URL once its query string is
stripped (for a folder that is nonempty and has no trailing slash, so
that `os.path.join` inserts exactly one separator). -/
theorem destination_path (folder : String) (item : Item) (photo : Photo)
    (best : SizeVariant) (url : String) (pid : Int)
    (h1 : item.photo = some photo) (h2 : photo.id = some pid)
    (h3 : maxByWidth photo.sizes = some best) (h4 : best.url = some url)
    (h5 : folder ≠ "") (h6 : folder.data.getLast? ≠ some (Char.ofNat 47)) :
    planItem folder item
      = some (url, folder ++ "/" ++ ("photo_" ++ toString pid ++ "."
          ++ String.mk ((splitOnChar (Char.ofNat 46) (stripQuery url).data).getLastD []))) := by
  simp [planItem, h1, h2, h3, h4, ospath_join, h5, h6, extOf]

theorem destination_path_witness :
    planItem "out" ⟨some ⟨some 1, [⟨some 100, some "http://x/a.jpg?q=1"⟩]⟩⟩
      = some ("http://x/a.jpg?q=1", "out" ++ "/" ++ ("photo_" ++ toString (1 : Int) ++ "."
          ++ String.mk ((splitOnChar (Char.ofNat 46)
                (stripQuery "http://x/a.jpg?q=1").data).getLastD []))) :=
  destination_path "out" ⟨some ⟨some 1, [⟨some 100, some "http://x/a.jpg?q=1"⟩]⟩⟩
    ⟨some 1, [⟨some 100, some "http://x/a.jpg?q=1"⟩]⟩ ⟨some 100, some "http://x/a.jpg?q=1"⟩
    "http://x/a.jpg?q=1" 1 rfl rfl rfl rfl (by simp) (by decide)

/-- C6. A malformed item is dropped without disturbing the rest of the
page: planning `pre ++ bad :: post` yields the same tasks as planning
`pre ++ post`, and when every other item is well-formed the task count
is exactly the number of well-formed items. -/
theorem malformed_item_dropped (folder : String) (bad : Item) (pre post : List Item)
    (hbad : planItem folder bad = none)
    (hgood : ∀ i ∈ pre ++ post, (planItem folder i).isSome = true) :
    plan folder (pre ++ bad :: post) = plan folder (pre ++ post)
    ∧ (plan folder (pre ++ bad :: post)).length = (pre ++ post).length := by
  have he : plan folder (pre ++ bad :: post) = plan folder (pre ++ post) := by
    simp [plan, List.filterMap_append, List.filterMap_cons, hbad]
  exact ⟨he, by rw [he]; exact length_filterMap_all_isSome _ _ hgood⟩

theorem malformed_item_dropped_witness :
    plan "out" ([(⟨some ⟨some 1, [⟨some 100, some "http://x/a.jpg"⟩]⟩⟩ : Item)]
        ++ (⟨none⟩ : Item) :: [(⟨some ⟨some 2, [⟨some 50, some "http://x/b.png"⟩]⟩⟩ : Item)])
      = plan "out" ([(⟨some ⟨some 1, [⟨some 100, some "http://x/a.jpg"⟩]⟩⟩ : Item)]
        ++ [(⟨some ⟨some 2, [⟨some 50, some "http://x/b.png"⟩]⟩⟩ : Item)])
    ∧ (plan "out" ([(⟨some ⟨some 1, [⟨some 100, some "http://x/a.jpg"⟩]⟩⟩ : Item)]
        ++ (⟨none⟩ : Item)
            :: [(⟨some ⟨some 2, [⟨some 50, some "http://x/b.png"⟩]⟩⟩ : Item)])).length
      = ([(⟨some ⟨some 1, [⟨some 100, some "http://x/a.jpg"⟩]⟩⟩ : Item)]
        ++ [(⟨some ⟨some 2, [⟨some 50, some "http://x/b.png"⟩]⟩⟩ : Item)]).length :=
  malformed_item_dropped "out" ⟨none⟩ _ _ rfl (by decide)

/-- C10. In the bounded worker pool with capacity `MAX_WORKERS = 6`, no
reachable scheduler state ever has more than 6 tasks in flight. -/
theorem bounded_worker_pool (tasks : List (String × String)) (s : ExecState)
    (h : ExecReach MAX_WORKERS tasks s) : s.running.length ≤ 6 := by
  induction h with
  | init => simp
  | step hr hs ih =>
    cases hs with
    | start t rest running finished hlt =>
      simp only [List.length_cons]
      simp only [MAX_WORKERS] at hlt
      omega
    | finish pending l₁ l₂ t finished b =>
      simp only [List.length_append, List.length_cons] at ih ⊢
      omega

theorem bounded_worker_pool_witness :
    ExecReach MAX_WORKERS [("u", "p")] ⟨[], [("u", "p")], []⟩
    ∧ (ExecState.running ⟨[], [("u", "p")], []⟩).length ≤ 6 :=
  have h : ExecReach MAX_WORKERS [("u", "p")] ⟨[], [("u", "p")], []⟩ :=
    ExecReach.step ExecReach.init
      (ExecStep.start ("u", "p") [] [] [] (by simp [MAX_WORKERS]))
  ⟨h, bounded_worker_pool [("u", "p")] ⟨[], [("u", "p")], []⟩ h⟩

/-- C2. Batch-then-persist ordering: wherever a `persisted` event of page
`k` occurs in the trace of a run — under any network behaviour, any save
outcomes and any response script — no download task of page `k`
completes after it; a page's cursor is saved only once every task
derived from that page's items has finished. -/
theorem cursor_persisted_after_batch (peer folder : String) (net : String → NetResult)
    (saveOk : Nat → Bool) (script : List FetchResult) (st : LoopState)
    (l₁ l₂ : List Event) (k : Nat) (file : ResumeState) (t : String × String) (b : Bool)
    (hsplit : (runLoop peer folder net saveOk script st).2
        = l₁ ++ Event.persisted k file :: l₂) :
    Event.taskDone k t b ∉ l₂ :=
  ntap_split l₁ _ (runLoop_ntap peer folder net saveOk script st) k file l₂ hsplit t b

theorem cursor_persisted_after_batch_witness :
    Event.taskDone 0 ("http://x/a.jpg", "out/photo_1.jpg") true
      ∉ [Event.fetched 1 (some "abc")] :=
  cursor_persisted_after_batch "12345" "out" (fun _ => NetResult.failEarly)
    (fun _ => true)
    [FetchResult.page [⟨some ⟨some 1, [⟨some 100, some "http://x/a.jpg"⟩]⟩⟩]
       (some "abc"),
     FetchResult.page [] none]
    (initState [] (fun _ => none) "12345")
    [Event.fetched 0 none,
     Event.taskDone 0 ("http://x/a.jpg", "out/photo_1.jpg") false]
    [Event.fetched 1 (some "abc")] 0 [("12345", some "abc")]
    ("http://x/a.jpg", "out/photo_1.jpg") true rfl

/-- C1 (amended). With every save succeeding, for a run started from the
loaded resume file: (1) every persisted state maps the conversation key
exactly to the `next_from` of the page just processed, except that the
second save after a page with a falsy `next_from` has the key removed;
(2) once the loop reaches a non-empty page whose `next_from` is falsy,
the final persisted state has no entry for the conversation; (3) once
the loop reaches a page with an empty item list it stops with exactly
the state it had before that page — the key is retained, not removed, at
that form of end-of-stream. -/
theorem cursor_advance_amended (peer folder : String) (net : String → NetResult)
    (script : List FetchResult) (loaded : ResumeState) (fs0 : FS) :
    (∀ k file, Event.persisted k file
        ∈ (runLoop peer folder net (fun _ => true) script (initState loaded fs0 peer)).2 →
      ∃ items nf, script.get? k = some (FetchResult.page items nf) ∧ items ≠ []
        ∧ (stateGet file peer = nf ∨ (truthy nf = false ∧ file.lookup peer = none)))
    ∧ (∀ k items nf, reachesPage script k →
        script.get? k = some (FetchResult.page items nf) → items ≠ [] →
        truthy nf = false →
        (runLoop peer folder net (fun _ => true) script
            (initState loaded fs0 peer)).1.fileState.lookup peer = none)
    ∧ (∀ k nf (saveOk : Nat → Bool), reachesPage script k →
        script.get? k = some (FetchResult.page [] nf) →
        (runLoop peer folder net saveOk script (initState loaded fs0 peer)).1
          = (runLoop peer folder net saveOk (script.take k)
              (initState loaded fs0 peer)).1) := by
  refine ⟨?_, ?_, ?_⟩
  · intro k file hm
    have h := runLoop_persisted_law peer folder net script (initState loaded fs0 peer)
      k file hm
    simpa [initState] using h
  · intro k items nf hreach hget hne ht2
    exact (runLoop_falsy_removes peer folder net k script (initState loaded fs0 peer)
      items nf hreach hget hne ht2).1
  · intro k nf saveOk hreach hget
    exact runLoop_empty_truncates peer folder net saveOk k script
      (initState loaded fs0 peer) nf hreach hget

theorem cursor_advance_amended_witness :
    (runLoop "12345" "out" (fun _ => NetResult.failEarly) (fun _ => true)
        [FetchResult.page [⟨some ⟨some 1, [⟨some 100, some "http://x/a.jpg"⟩]⟩⟩] none]
        (initState [] (fun _ => none) "12345")).1.fileState.lookup "12345" = none :=
  (cursor_advance_amended "12345" "out" (fun _ => NetResult.failEarly)
      [FetchResult.page [⟨some ⟨some 1, [⟨some 100, some "http://x/a.jpg"⟩]⟩⟩] none]
      [] (fun _ => none)).2.1 0
    [⟨some ⟨some 1, [⟨some 100, some "http://x/a.jpg"⟩]⟩⟩] none
    (fun j hj => absurd hj (Nat.not_lt_zero j)) rfl
    (List.cons_ne_nil _ _) rfl

/-- C1, counterexample to the claim as stated: a run whose second page
returns an empty item list stops with the conversation's key still in
the persisted resume state (the `break` at the empty-items check happens
before any state mutation) — the key is not removed at that form of
end-of-stream. -/
theorem empty_page_cursor_counterexample :
    (runLoop "12345" "out" (fun _ => NetResult.failEarly) (fun _ => true)
        [FetchResult.page [⟨some ⟨some 1, [⟨some 100, some "http://x/a.jpg"⟩]⟩⟩]
           (some "abc"),
         FetchResult.page [] none]
        (initState [] (fun _ => none) "12345")).1.fileState
      = [("12345", some "abc")] := by
  rfl

end VKDumper
